import Mathlib

/-
Verification of the grouping-and-timeline core (dsl/grouped_entries.go).

The `GroupedEntries` ordered multi-map and its operations (`Append`,
`AppendEntries`, `Lookup`, `EachGroup`, `Filter`, `first`,
`ConstructTimelines`, `WriteLagerFormatTo`) are translated from the Go
source.  The `Entries` collaborator (`First`, `Filter`, `GroupBy`, entry
ordering, the lager formatter) lives outside the sources at hand and is
modelled from the specification's interface contract (spec §6); each such
definition is marked `Modelled from the spec`.  Go closures that mutate
captured variables are embedded as explicit state passing, Go `error`
results as `Option`/`Except` values, and the `map[interface{}]int` lookup
index as a function to `Option Nat`.
-/

set_option maxHeartbeats 1000000

namespace Cicerone

/-- A single log entry.  The core treats entries as opaque except for the
ordering and matching contract (spec §6): entries are compared by
timestamp, and carry otherwise-opaque payload data. -/
structure Entry where
  Timestamp : Nat
  Data : Nat
deriving DecidableEq

/-- A `Matcher` is a predicate over a single entry (spec §6). -/
abbrev Matcher := Entry → Bool

/-- `Entries` is an ordered sequence of `Entry` (the external collaborator's
carrier type). -/
abbrev Entries := List Entry

/-- Modelled from the spec: the external `Entries.Filter(matcher)` returns
the sub-sequence of entries satisfying the matcher, in sequence order
(spec §6); the method itself is not among the sources at hand. -/
def Entries.Filter (es : Entries) (matcher : Matcher) : Entries :=
  es.filter matcher

/-- Modelled from the spec: the external `Entries.First(matcher)` returns
the earliest matching entry in sequence order together with a found flag
(spec §6), embedded as an `Option`. -/
def Entries.First (es : Entries) (matcher : Matcher) : Option Entry :=
  es.find? matcher

/-- Modelled from the spec: entries are ordered by timestamp ("e.g. by
timestamp", spec §6 "Entry ordering"); insertion of an entry into a
timestamp-sorted list. -/
def insertEntry (e : Entry) : Entries → Entries
  | [] => [e]
  | f :: rest =>
      if e.Timestamp ≤ f.Timestamp then e :: f :: rest
      else f :: insertEntry e rest

/-- Modelled from the spec: `sort.Sort(firsts)` sorts entries by the
collaborator's ordering, i.e. by timestamp (spec §6). -/
def sortEntries : Entries → Entries
  | [] => []
  | e :: rest => insertEntry e (sortEntries rest)

/-- The ordered multi-map of grouped entries (`GroupedEntries` in the Go
source): parallel `Keys`/`Entries` arrays plus a lookup index from key to
position, embedded as a function to `Option Nat`. -/
structure GroupedEntries (κ : Type) where
  Keys : List κ
  Entries : List Cicerone.Entries
  lookup : κ → Option Nat

/-- `NewGroupedEntries` initializes a new, empty `GroupedEntries`. -/
def NewGroupedEntries (κ : Type) : GroupedEntries κ :=
  { Keys := [], Entries := [], lookup := fun _ => none }

/-- `AppendEntries` appends a slice of entries to the given key: an unseen
key is allocated a fresh empty group at the end of the parallel arrays and
recorded in the lookup index; then the entries are appended to the key's
group.  A missing lookup hit yields Go's zero value 0, hence `getD 0`. -/
def GroupedEntries.AppendEntries {κ : Type} [DecidableEq κ]
    (g : GroupedEntries κ) (key : κ) (entries : Cicerone.Entries) :
    GroupedEntries κ :=
  let g1 :=
    match g.lookup key with
    | some _ => g
    | none =>
        { Keys := g.Keys ++ [key]
          Entries := g.Entries ++ [[]]
          lookup := fun k => if k = key then some g.Keys.length else g.lookup k }
  let i := (g1.lookup key).getD 0
  { g1 with Entries := g1.Entries.set i (g1.Entries.getD i [] ++ entries) }

/-- `Append` adds a single entry to the given key. -/
def GroupedEntries.Append {κ : Type} [DecidableEq κ]
    (g : GroupedEntries κ) (key : κ) (entry : Entry) : GroupedEntries κ :=
  g.AppendEntries key [entry]

/-- `Lookup` returns the entries stored for a key together with a found
flag, embedded as an `Option`. -/
def GroupedEntries.Lookup {κ : Type} (g : GroupedEntries κ) (key : κ) :
    Option Cicerone.Entries :=
  match g.lookup key with
  | none => none
  | some i => some (g.Entries.getD i [])

/-- The loop body of `EachGroup`: visit the `(key, entries)` pairs in
order, stopping at the visitor's first non-nil error.  The visitor threads
an explicit state `σ`, standing for the mutable variables a Go closure
captures. -/
def eachGroupFrom {κ σ ε : Type} (f : σ → κ → Entries → σ × Option ε) :
    σ → List (κ × Entries) → σ × Option ε
  | s, [] => (s, none)
  | s, p :: rest =>
      match f s p.1 p.2 with
      | (s1, some e) => (s1, some e)
      | (s1, none) => eachGroupFrom f s1 rest

/-- `EachGroup` iterates the visitor over all keys and entries in order;
returning a non-nil error aborts the iteration. -/
def GroupedEntries.EachGroup {κ σ ε : Type} (g : GroupedEntries κ)
    (f : σ → κ → Cicerone.Entries → σ × Option ε) (s : σ) : σ × Option ε :=
  eachGroupFrom f s (g.Keys.zip g.Entries)

/-- `Filter` applies `Entries.Filter` to each group via `EachGroup`,
appending non-empty results to a fresh map; groups that end up empty are
omitted. -/
def GroupedEntries.Filter {κ : Type} [DecidableEq κ]
    (g : GroupedEntries κ) (matcher : Matcher) : GroupedEntries κ :=
  (g.EachGroup (fun filteredGroups key entries =>
      let filtered := Cicerone.Entries.Filter entries matcher
      (if 0 < filtered.length then filteredGroups.AppendEntries key filtered
       else filteredGroups,
       (none : Option Unit)))
    (NewGroupedEntries κ)).1

/-- `first` collects each group's first entry matching the matcher, sorts
the candidates, and returns the earliest one (`firsts[0]`); `none` when no
group has a match. -/
def GroupedEntries.first {κ : Type} (g : GroupedEntries κ)
    (matcher : Matcher) : Option Entry :=
  let firsts := g.Entries.foldl (fun acc entries =>
    match Cicerone.Entries.First entries matcher with
    | some fst => acc ++ [fst]
    | none => acc) ([] : Cicerone.Entries)
  if firsts.isEmpty then none
  else (sortEntries firsts).head?

/-- One milestone descriptor of a timeline description: a name and a
matcher; element 0 of a description is the anchor descriptor. -/
structure TimelineMilestone where
  Name : String
  Matcher : Cicerone.Matcher

/-- A `TimelineDescription` is an ordered sequence of milestone
descriptors. -/
abbrev TimelineDescription := List TimelineMilestone

/-- The anchor descriptor is element 0 of the description (`description[0]`
in the Go source, which presupposes a non-empty description; the default
value is never relevant for a non-empty description). -/
def anchorDescriptor (description : TimelineDescription) : TimelineMilestone :=
  description.headD { Name := "", Matcher := fun _ => false }

/-- A constructed timeline: the matched milestone content produced by the
external collaborator, plus the `Annotation` the core sets to the owning
group's key (Go's `interface{}` zero value is embedded as `none`). -/
structure Timeline (κ : Type) where
  Annotation : Option κ
  Milestones : List Entry

/-- Projection of a timeline's annotation. -/
def Timeline.annot {κ : Type} : Timeline κ → Option κ
  | ⟨a, _⟩ => a

/-- A flat ordered sequence of timelines, one per group. -/
abbrev Timelines (κ : Type) := List (Timeline κ)

/-- `ConstructTimelines` selects the shared anchor via `first` and then
builds one annotated timeline per group via `EachGroup`.  The external
`Entries.ConstructTimeline` collaborator is out of scope for the core
(spec §4.2 delegates the per-descriptor matching) and is passed in as the
`construct` parameter; the diagnostic `fmt.Printf` count is advisory only
(spec §4.2) and has no functional embedding. -/
def GroupedEntries.ConstructTimelines {κ : Type} (g : GroupedEntries κ)
    (construct : Cicerone.Entries → TimelineDescription → Entry → Timeline κ)
    (description : TimelineDescription) : Except String (Timelines κ) :=
  let d0 := anchorDescriptor description
  match g.first d0.Matcher with
  | none => Except.error ("unable to find first entry to anchor timelines " ++ d0.Name)
  | some firstEntry =>
      Except.ok (g.EachGroup (fun timelines key entries =>
          let timeline := construct entries description firstEntry
          (timelines ++ [{ timeline with Annotation := some key }],
           (none : Option Unit)))
        ([] : Timelines κ)).1

/-- Modelled from the spec: the external `Entries.GroupBy(getter)` groups a
flat sequence by a derived key ("grouped via a derived key into
`OrderedGroupMap`", spec §2; "the first Key in the GroupedEntries is the
first Key that was detected", source doc comment): each entry is appended
under its derived key in sequence order. -/
def Entries.GroupBy {κ : Type} [DecidableEq κ] (es : Entries)
    (getter : Entry → κ) : GroupedEntries κ :=
  es.foldl (fun g e => g.Append (getter e) e) (NewGroupedEntries κ)

/-- An output sink: a write consumes a state and a string and yields the
new state and an optional write error (spec §6 "any byte-sink the caller
supplies"). -/
structure Writer (σ ε : Type) where
  write : σ → String → σ × Option ε

/-- The lager-format line of a single entry (textual representation;
its exact shape is irrelevant to the write-sequencing contract). -/
def Entry.lagerLine (e : Entry) : String :=
  toString e.Timestamp ++ " " ++ toString e.Data

/-- Modelled from the spec: the external `Entries` lager formatter writes
one line per entry in order and propagates the first write failure
immediately, aborting further output (spec §4.3, §6). -/
def Entries.WriteLagerFormatTo {σ ε : Type} (es : Entries)
    (w : Writer σ ε) (s : σ) : σ × Option ε :=
  match es with
  | [] => (s, none)
  | e :: rest =>
      match w.write s (Entry.lagerLine e ++ "\n") with
      | (s1, some err) => (s1, some err)
      | (s1, none) => Entries.WriteLagerFormatTo rest w s1

/-- `WriteLagerFormatTo` on a group map: for each group, print the key line
(`fmt.Fprintf`, whose error the Go source discards) followed by the group's
formatted entries.  The Go source discards the `error` returned by
`EachGroup` and returns `nil` unconditionally; the embedding reproduces
this faithfully. -/
def GroupedEntries.WriteLagerFormatTo {κ σ ε : Type} (g : GroupedEntries κ)
    (keyFmt : κ → String) (w : Writer σ ε) (s : σ) : σ × Option ε :=
  let r := g.EachGroup (fun st key entries =>
      let st1 := (w.write st (keyFmt key ++ "\n")).1
      Cicerone.Entries.WriteLagerFormatTo entries w st1) s
  (r.1, none)

/-- The keys of a call sequence that are new relative to `prev`, in order
of first appearance (specification-side description of key-insertion
order). -/
def newKeys {κ : Type} [DecidableEq κ] (prev : List κ) :
    List (κ × Entries) → List κ
  | [] => []
  | c :: rest =>
      if c.1 ∈ prev then newKeys prev rest
      else c.1 :: newKeys (prev ++ [c.1]) rest

/-- The concatenation, in call order, of all entries appended under key `k`
in a call sequence (specification-side description of a group's
contents). -/
def joinFor {κ : Type} [DecidableEq κ] (k : κ) :
    List (κ × Entries) → Entries
  | [] => []
  | c :: rest => if c.1 = k then c.2 ++ joinFor k rest else joinFor k rest

/-- First index of an element satisfying `p` (used to state the lookup
invariant). -/
def findIdxO {α : Type} (p : α → Bool) : List α → Option Nat
  | [] => none
  | a :: l => if p a then some 0 else (findIdxO p l).map (· + 1)

/-- The structural invariant of `GroupedEntries`: parallel arrays of equal
length, no duplicate keys, and the lookup index is exactly first-index-of
in `Keys` (in particular `none` on absent keys). -/
def InvFull {κ : Type} [DecidableEq κ] (g : GroupedEntries κ) : Prop :=
  g.Keys.length = g.Entries.length ∧
  g.Keys.Nodup ∧
  ∀ k, g.lookup k = findIdxO (fun x => decide (x = k)) g.Keys

instance {κ : Type} [DecidableEq κ] [Fintype κ] (g : GroupedEntries κ) :
    Decidable (InvFull g) := by
  unfold InvFull; infer_instance

/-- Maps reachable from `NewGroupedEntries` by `Append`, `AppendEntries`
and `Filter`. -/
inductive Reachable {κ : Type} [DecidableEq κ] : GroupedEntries κ → Prop
  | new : Reachable (NewGroupedEntries κ)
  | append (g : GroupedEntries κ) (k : κ) (e : Entry) :
      Reachable g → Reachable (g.Append k e)
  | appendEntries (g : GroupedEntries κ) (k : κ) (es : Entries) :
      Reachable g → Reachable (g.AppendEntries k es)
  | filter (g : GroupedEntries κ) (m : Matcher) :
      Reachable g → Reachable (g.Filter m)

/-! ### Concrete fixtures (used by witness and counterexample theorems) -/

def entryA : Entry := ⟨5, 1⟩

def entryB : Entry := ⟨2, 2⟩

def matchAll : Matcher := fun _ => true

def milestoneW : TimelineMilestone := { Name := "anchor", Matcher := matchAll }

def constructW : Entries → TimelineDescription → Entry → Timeline Bool :=
  fun es _ a => { Annotation := none, Milestones := a :: es }

/-- Two groups: key `true` holds an entry at time 5, key `false` one at
time 2. -/
def gW : GroupedEntries Bool :=
  ((NewGroupedEntries Bool).Append true entryA).Append false entryB

/-- One group under key `true`; key `false` is absent. -/
def gB1 : GroupedEntries Bool := (NewGroupedEntries Bool).Append true entryA

/-- A map reached through `Append` and `Filter`. -/
def gR : GroupedEntries Bool :=
  ((NewGroupedEntries Bool).Append true entryA).Filter matchAll

/-- A visitor that errors exactly on the group with key `false`. -/
def fW : Bool → Entries → Option Unit :=
  fun k _ => if k = false then some () else none

def mTime : Matcher := fun e => decide (3 ≤ e.Timestamp)

/-- A sink that rejects every write, counting the attempts. -/
def wFail : Writer Nat Unit := { write := fun n _ => (n + 1, some ()) }

/-- A flat sequence in which key 1's earliest entry is rejected by `mX`
while a later key-1 entry survives, with a key-2 entry in between. -/
def esX : Entries := [⟨1, 1⟩, ⟨2, 2⟩, ⟨3, 1⟩]

def getterX : Entry → Nat := Entry.Data

def mX : Matcher := fun e => decide (2 ≤ e.Timestamp)

/-! ### Helper lemmas: `findIdxO` -/

theorem findIdxO_eq_none_iff {α : Type} {p : α → Bool} {l : List α} :
    findIdxO p l = none ↔ ∀ x ∈ l, p x = false := by
  induction l with
  | nil => simp [findIdxO]
  | cons a l ih =>
      by_cases h : p a = true
      · simp [findIdxO, h]
      · simp only [Bool.not_eq_true] at h
        simp [findIdxO, h, ih]

theorem findIdxO_lt_length {α : Type} {p : α → Bool} {l : List α} {i : Nat}
    (h : findIdxO p l = some i) : i < l.length := by
  induction l generalizing i with
  | nil => simp [findIdxO] at h
  | cons a l ih =>
      by_cases hp : p a = true
      · simp [findIdxO, hp] at h
        simp only [List.length_cons]
        omega
      · simp only [Bool.not_eq_true] at hp
        simp [findIdxO, hp] at h
        obtain ⟨j, hj, rfl⟩ := h
        have := ih hj
        simp
        omega

theorem findIdxO_getElem {α : Type} {p : α → Bool} {l : List α} {i : Nat}
    (h : findIdxO p l = some i) :
    ∃ hi : i < l.length, p l[i] = true := by
  induction l generalizing i with
  | nil => simp [findIdxO] at h
  | cons a l ih =>
      by_cases hp : p a = true
      · simp [findIdxO, hp] at h
        subst h
        exact ⟨by simp, hp⟩
      · simp only [Bool.not_eq_true] at hp
        simp [findIdxO, hp] at h
        obtain ⟨j, hj, rfl⟩ := h
        obtain ⟨hjl, hpj⟩ := ih hj
        exact ⟨by simpa using Nat.succ_lt_succ hjl, by simpa using hpj⟩

theorem findIdxO_append_of_some {α : Type} {p : α → Bool} {l l' : List α}
    {i : Nat} (h : findIdxO p l = some i) :
    findIdxO p (l ++ l') = some i := by
  induction l generalizing i with
  | nil => simp [findIdxO] at h
  | cons a l ih =>
      by_cases hp : p a = true
      · simp [findIdxO, hp] at h ⊢
        exact h
      · simp only [Bool.not_eq_true] at hp
        simp [findIdxO, hp] at h ⊢
        obtain ⟨j, hj, rfl⟩ := h
        exact ⟨j, ih hj, rfl⟩

theorem findIdxO_append_of_none {α : Type} {p : α → Bool} {l l' : List α}
    (h : findIdxO p l = none) :
    findIdxO p (l ++ l') = (findIdxO p l').map (· + l.length) := by
  induction l with
  | nil => simp
  | cons a l ih =>
      by_cases hp : p a = true
      · simp [findIdxO, hp] at h
      · simp only [Bool.not_eq_true] at hp
        simp [findIdxO, hp] at h ⊢
        rw [ih h]
        cases findIdxO p l'
        · simp
        · simp
          omega

theorem findIdxO_nodup_getElem {α : Type} [DecidableEq α] {l : List α}
    (hnd : l.Nodup) {i : Nat} (hi : i < l.length) :
    findIdxO (fun x => decide (x = l[i])) l = some i := by
  induction l generalizing i with
  | nil => simp at hi
  | cons a l ih =>
      cases i with
      | zero => simp [findIdxO]
      | succ j =>
          have hj : j < l.length := by simpa using hi
          have hmem : l[j] ∈ l := List.getElem_mem hj
          have hne : a ≠ (a :: l)[j + 1] := by
            simp only [List.getElem_cons_succ]
            intro hEq
            exact (List.nodup_cons.1 hnd).1 (hEq ▸ hmem)
          simp only [findIdxO, decide_eq_true_eq]
          rw [if_neg hne]
          have := ih (List.nodup_cons.1 hnd).2 hj
          simp only [List.getElem_cons_succ]
          rw [this]
          rfl

/-- Under the invariant, a key is present exactly when the lookup index
hits. -/
theorem lookup_eq_none_iff_not_mem {κ : Type} [DecidableEq κ]
    {g : GroupedEntries κ} (h : InvFull g) (k : κ) :
    g.lookup k = none ↔ k ∉ g.Keys := by
  rw [h.2.2 k, findIdxO_eq_none_iff]
  constructor
  · intro hall hk
    have := hall k hk
    simp at this
  · intro hk x hx
    simp only [decide_eq_false_iff_not]
    intro hEq
    exact hk (hEq ▸ hx)

/-! ### Helper lemmas: `AppendEntries` -/

theorem set_concat_length {α : Type} (l : List α) (x v : α) :
    (l ++ [x]).set l.length v = l ++ [v] := by
  induction l with
  | nil => rfl
  | cons a l ih => simp [ih]

/-- Unfolding of `Lookup` through `Option.map`. -/
theorem Lookup_def {κ : Type} (g : GroupedEntries κ) (k : κ) :
    g.Lookup k = (g.lookup k).map (fun i => g.Entries.getD i []) := by
  unfold GroupedEntries.Lookup
  cases g.lookup k
  · rfl
  · rfl

/-- Shape of `AppendEntries` on a key the lookup index misses. -/
theorem appendEntries_of_lookup_none {κ : Type} [DecidableEq κ]
    {g : GroupedEntries κ} {key : κ} (entries : Entries)
    (hlen : g.Keys.length = g.Entries.length) (h : g.lookup key = none) :
    g.AppendEntries key entries =
      { Keys := g.Keys ++ [key]
        Entries := g.Entries ++ [entries]
        lookup := fun k => if k = key then some g.Keys.length else g.lookup k } := by
  have hget : (g.Entries ++ [[]]).getD g.Keys.length [] = ([] : Entries) := by
    rw [List.getD_eq_getElem?_getD, hlen, List.getElem?_concat_length]
    rfl
  unfold GroupedEntries.AppendEntries
  simp only [h, if_true, Option.getD_some, hget, List.nil_append]
  congr 1
  rw [hlen, set_concat_length]

/-- Shape of `AppendEntries` on a key the lookup index hits. -/
theorem appendEntries_of_lookup_some {κ : Type} [DecidableEq κ]
    {g : GroupedEntries κ} {key : κ} {i : Nat} (entries : Entries)
    (h : g.lookup key = some i) :
    g.AppendEntries key entries =
      { g with Entries := g.Entries.set i (g.Entries.getD i [] ++ entries) } := by
  unfold GroupedEntries.AppendEntries
  simp only [h, Option.getD_some]

/-- `AppendEntries` preserves the structural invariant. -/
theorem invFull_appendEntries {κ : Type} [DecidableEq κ]
    {g : GroupedEntries κ} (key : κ) (entries : Entries) (h : InvFull g) :
    InvFull (g.AppendEntries key entries) := by
  obtain ⟨hlen, hnd, hlk⟩ := h
  cases hcase : g.lookup key with
  | some i =>
      rw [appendEntries_of_lookup_some entries hcase]
      exact ⟨by simpa using hlen, hnd, hlk⟩
  | none =>
      have hkey : key ∉ g.Keys := by
        rw [hlk key, findIdxO_eq_none_iff] at hcase
        intro hk
        have := hcase key hk
        simp at this
      rw [appendEntries_of_lookup_none entries hlen hcase]
      refine ⟨by simp [hlen], ?_, ?_⟩
      · simp [List.nodup_append, hnd, hkey]
      · intro k
        by_cases hk : k = key
        · subst hk
          have hnone : findIdxO (fun x => decide (x = k)) g.Keys = none := by
            rw [findIdxO_eq_none_iff]
            intro x hx
            simp only [decide_eq_false_iff_not]
            intro hEq
            exact hkey (hEq ▸ hx)
          rw [findIdxO_append_of_none hnone]
          simp [findIdxO]
        · simp only [if_neg hk]
          rw [hlk k]
          cases hfi : findIdxO (fun x => decide (x = k)) g.Keys with
          | some i => rw [findIdxO_append_of_some hfi]
          | none =>
              rw [findIdxO_append_of_none hfi]
              simp [findIdxO, hk, Ne.symm hk]

/-- Effect of `AppendEntries` on `Keys`. -/
theorem keys_appendEntries {κ : Type} [DecidableEq κ]
    {g : GroupedEntries κ} (key : κ) (entries : Entries) (h : InvFull g) :
    (g.AppendEntries key entries).Keys =
      if key ∈ g.Keys then g.Keys else g.Keys ++ [key] := by
  cases hcase : g.lookup key with
  | some i =>
      have hmem : key ∈ g.Keys := by
        by_contra hk
        rw [(lookup_eq_none_iff_not_mem h key).2 hk] at hcase
        cases hcase
      rw [appendEntries_of_lookup_some entries hcase, if_pos hmem]
  | none =>
      have hk := (lookup_eq_none_iff_not_mem h key).1 hcase
      rw [appendEntries_of_lookup_none entries h.1 hcase, if_neg hk]

/-- Effect of `AppendEntries` on `Lookup`: the given key's group grows by
`entries` at the end, every other key is untouched. -/
theorem lookup_appendEntries {κ : Type} [DecidableEq κ]
    {g : GroupedEntries κ} (key : κ) (entries : Entries) (h : InvFull g)
    (k : κ) :
    (g.AppendEntries key entries).Lookup k =
      if k = key then some ((g.Lookup key).getD [] ++ entries)
      else g.Lookup k := by
  obtain ⟨hlen, hnd, hlk⟩ := h
  cases hcase : g.lookup key with
  | some i =>
      have hi : i < g.Entries.length := by
        rw [hlk key] at hcase
        exact hlen ▸ findIdxO_lt_length hcase
      rw [appendEntries_of_lookup_some entries hcase]
      by_cases hk : k = key
      · subst hk
        simp only [Lookup_def, hcase, Option.map_some', if_true,
          Option.getD_some]
        rw [List.getD_eq_getElem?_getD, List.getElem?_set]
        simp [hi, List.getD_eq_getElem?_getD]
      · simp only [Lookup_def, if_neg hk]
        cases hck : g.lookup k with
        | none => simp
        | some j =>
            have hij : i ≠ j := by
              intro hEq
              subst hEq
              rw [hlk key] at hcase
              rw [hlk k] at hck
              obtain ⟨hil, hpi⟩ := findIdxO_getElem hcase
              obtain ⟨hjl, hpj⟩ := findIdxO_getElem hck
              simp only [decide_eq_true_eq] at hpi hpj
              exact hk (hpj ▸ hpi)
            simp only [Option.map_some', Option.some.injEq]
            rw [List.getD_eq_getElem?_getD, List.getElem?_set, if_neg hij,
              ← List.getD_eq_getElem?_getD]
  | none =>
      rw [appendEntries_of_lookup_none entries hlen hcase]
      by_cases hk : k = key
      · subst hk
        simp only [Lookup_def, hcase, if_true, Option.map_some',
          Option.map_none', Option.getD_none, List.nil_append]
        rw [List.getD_eq_getElem?_getD, hlen, List.getElem?_concat_length]
        simp
      · simp only [Lookup_def, if_neg hk]
        cases hck : g.lookup k with
        | none => simp [hck]
        | some j =>
            have hj : j < g.Entries.length := by
              rw [hlk k] at hck
              exact hlen ▸ findIdxO_lt_length hck
            simp only [hck, Option.map_some', Option.some.injEq]
            rw [List.getD_eq_getElem?_getD, List.getElem?_append,
              if_pos hj, ← List.getD_eq_getElem?_getD]

/-! ### Helper lemmas: folds and `EachGroup` -/

theorem invFull_new {κ : Type} [DecidableEq κ] : InvFull (NewGroupedEntries κ) := by
  refine ⟨rfl, List.nodup_nil, fun k => rfl⟩

/-- A visitor that never errors turns `eachGroupFrom` into a plain fold. -/
theorem eachGroupFrom_noerr {κ σ ε : Type} (f : σ → κ → Entries → σ × Option ε)
    (h : ∀ s k es, (f s k es).2 = none) :
    ∀ (L : List (κ × Entries)) (s : σ),
    eachGroupFrom f s L = (L.foldl (fun st p => (f st p.1 p.2).1) s, none) := by
  intro L
  induction L with
  | nil => intro s; rfl
  | cons p rest ih =>
      intro s
      have hp := h s p.1 p.2
      unfold eachGroupFrom
      simp only [List.foldl_cons]
      cases hf : f s p.1 p.2 with
      | mk s1 o =>
          rw [hf] at hp
          simp only at hp
          subst hp
          simpa using ih s1

theorem foldl_append_map {α β : Type} (h : α → β) :
    ∀ (L : List α) (acc : List β),
    L.foldl (fun acc x => acc ++ [h x]) acc = acc ++ L.map h := by
  intro L
  induction L with
  | nil => intro acc; simp
  | cons x rest ih => intro acc; simp [ih]

theorem foldl_collect_filterMap {α β : Type} (f : α → Option β) :
    ∀ (L : List α) (acc : List β),
    L.foldl (fun acc x =>
      match f x with
      | some y => acc ++ [y]
      | none => acc) acc = acc ++ L.filterMap f := by
  intro L
  induction L with
  | nil => intro acc; simp
  | cons x rest ih =>
      intro acc
      cases hf : f x with
      | some y => simp [List.foldl_cons, hf, ih]
      | none => simp [List.foldl_cons, hf, ih]

/-- A fold that conditionally appends equals the plain append-fold over the
surviving calls. -/
theorem foldl_ite_filterMap {κ : Type} [DecidableEq κ] (F : Entries → Entries) :
    ∀ (L : List (κ × Entries)) (g : GroupedEntries κ),
    L.foldl (fun acc kv =>
      if 0 < (F kv.2).length then acc.AppendEntries kv.1 (F kv.2) else acc) g =
    (L.filterMap (fun kv =>
      if 0 < (F kv.2).length then some (kv.1, F kv.2) else none)).foldl
      (fun a c => a.AppendEntries c.1 c.2) g := by
  intro L
  induction L with
  | nil => intro g; rfl
  | cons kv rest ih =>
      intro g
      by_cases hc : 0 < (F kv.2).length
      · simp [hc, ih]
      · simp [hc, ih]

/-- Characterization of a fold of `AppendEntries` calls over a valid map:
the invariant is preserved, the new keys arrive at the end in first-call
order, and every key's group is extended by the concatenation of the
entries appended under it. -/
theorem foldA_char {κ : Type} [DecidableEq κ] :
    ∀ (calls : List (κ × Entries)) (g : GroupedEntries κ), InvFull g →
    InvFull (calls.foldl (fun a c => a.AppendEntries c.1 c.2) g) ∧
    (calls.foldl (fun a c => a.AppendEntries c.1 c.2) g).Keys =
      g.Keys ++ newKeys g.Keys calls ∧
    ∀ k, (calls.foldl (fun a c => a.AppendEntries c.1 c.2) g).Lookup k =
      match g.Lookup k with
      | some old => some (old ++ joinFor k calls)
      | none =>
          if k ∈ calls.map Prod.fst then some (joinFor k calls) else none := by
  intro calls
  induction calls with
  | nil =>
      intro g hg
      refine ⟨hg, by simp [newKeys], fun k => ?_⟩
      simp only [List.foldl_nil]
      cases g.Lookup k <;> simp [joinFor]
  | cons c rest ih =>
      intro g hg
      have hg1 : InvFull (g.AppendEntries c.1 c.2) :=
        invFull_appendEntries c.1 c.2 hg
      obtain ⟨ih1, ih2, ih3⟩ := ih (g.AppendEntries c.1 c.2) hg1
      have hmem_iff : (g.Lookup c.1).isSome = true ↔ c.1 ∈ g.Keys := by
        rw [Lookup_def]
        cases hc : g.lookup c.1 with
        | none => simp [(lookup_eq_none_iff_not_mem hg c.1).1 hc]
        | some i =>
            simp only [Option.map_some', Option.isSome_some, true_iff]
            by_contra hnm
            rw [(lookup_eq_none_iff_not_mem hg c.1).2 hnm] at hc
            cases hc
      refine ⟨ih1, ?_, ?_⟩
      · rw [List.foldl_cons, ih2, keys_appendEntries c.1 c.2 hg]
        by_cases hmem : c.1 ∈ g.Keys
        · simp only [if_pos hmem, newKeys, if_true]
        · simp only [if_neg hmem, newKeys, if_false]
          simp
      · intro k
        rw [List.foldl_cons, ih3 k, lookup_appendEntries c.1 c.2 hg k]
        by_cases hk : k = c.1
        · rw [if_pos hk, hk]
          cases g.Lookup c.1 with
          | some old => simp [joinFor, List.append_assoc]
          | none => simp [joinFor]
        · rw [if_neg hk]
          have hne : ¬(c.1 = k) := fun hEq => hk hEq.symm
          cases g.Lookup k with
          | some old => simp [joinFor, hne]
          | none =>
              simp only [joinFor, if_neg hne, List.map_cons]
              by_cases hm : k ∈ List.map Prod.fst rest
              · rw [if_pos hm, if_pos (List.mem_cons_of_mem c.1 hm)]
              · rw [if_neg hm, if_neg (by simp [List.mem_cons, hk, hm])]

/-! ### Loop specializations -/

/-- The `Filter` loop: collecting conditional appends equals folding
`AppendEntries` over the surviving `(key, filtered)` pairs. -/
theorem filter_loop_eq {κ : Type} [DecidableEq κ] (m : Matcher) :
    ∀ (L : List (κ × Entries)) (acc : GroupedEntries κ),
    (eachGroupFrom (fun filteredGroups key entries =>
        (if 0 < (Entries.Filter entries m).length
         then filteredGroups.AppendEntries key (Entries.Filter entries m)
         else filteredGroups, (none : Option Unit))) acc L).1 =
    (L.filterMap (fun kv =>
        if 0 < (Entries.Filter kv.2 m).length
        then some (kv.1, Entries.Filter kv.2 m) else none)).foldl
      (fun a c => a.AppendEntries c.1 c.2) acc := by
  intro L
  induction L with
  | nil => intro acc; rfl
  | cons kv rest ih =>
      intro acc
      by_cases hc : 0 < (Entries.Filter kv.2 m).length
      · simp only [eachGroupFrom, List.filterMap_cons, if_pos hc,
          List.foldl_cons]
        exact ih _
      · simp only [eachGroupFrom, List.filterMap_cons, if_neg hc]
        exact ih _

/-- `g.Filter m` as a plain `AppendEntries` fold over the surviving
pairs. -/
theorem Filter_eq {κ : Type} [DecidableEq κ] (g : GroupedEntries κ)
    (m : Matcher) :
    g.Filter m =
      ((g.Keys.zip g.Entries).filterMap (fun kv =>
        if 0 < (Entries.Filter kv.2 m).length
        then some (kv.1, Entries.Filter kv.2 m) else none)).foldl
        (fun a c => a.AppendEntries c.1 c.2) (NewGroupedEntries κ) :=
  filter_loop_eq m (g.Keys.zip g.Entries) (NewGroupedEntries κ)

/-- The `ConstructTimelines` loop: appending one annotated timeline per
pair is a `map`. -/
theorem timelines_loop_eq {κ : Type}
    (construct : Entries → TimelineDescription → Entry → Timeline κ)
    (description : TimelineDescription) (a : Entry) :
    ∀ (L : List (κ × Entries)) (acc : Timelines κ),
    (eachGroupFrom (fun timelines key entries =>
        (timelines ++ [{ construct entries description a with
            Annotation := some key }], (none : Option Unit))) acc L).1 =
    acc ++ L.map (fun kv =>
      { construct kv.2 description a with Annotation := some kv.1 }) := by
  intro L
  induction L with
  | nil => intro acc; simp [eachGroupFrom]
  | cons kv rest ih =>
      intro acc
      simp only [eachGroupFrom]
      rw [ih]
      simp

/-- `ConstructTimelines` when anchor selection succeeds. -/
theorem constructTimelines_of_first_some {κ : Type} (g : GroupedEntries κ)
    (construct : Entries → TimelineDescription → Entry → Timeline κ)
    (description : TimelineDescription) (a : Entry)
    (h : g.first (anchorDescriptor description).Matcher = some a) :
    g.ConstructTimelines construct description =
      Except.ok ((g.Keys.zip g.Entries).map (fun kv =>
        { construct kv.2 description a with Annotation := some kv.1 })) := by
  unfold GroupedEntries.ConstructTimelines
  simp only [h]
  exact congrArg Except.ok
    ((timelines_loop_eq construct description a (g.Keys.zip g.Entries) []).trans
      (List.nil_append _))

/-- `ConstructTimelines` when anchor selection fails. -/
theorem constructTimelines_of_first_none {κ : Type} (g : GroupedEntries κ)
    (construct : Entries → TimelineDescription → Entry → Timeline κ)
    (description : TimelineDescription)
    (h : g.first (anchorDescriptor description).Matcher = none) :
    g.ConstructTimelines construct description =
      Except.error ("unable to find first entry to anchor timelines " ++
        (anchorDescriptor description).Name) := by
  unfold GroupedEntries.ConstructTimelines
  simp only [h]

/-- A logging visitor that never errors records every pair in order. -/
theorem eachGroupFrom_log_all {κ ε : Type} (f : κ → Entries → Option ε) :
    ∀ (L t0 : List (κ × Entries)),
    (∀ p ∈ L, f p.1 p.2 = none) →
    eachGroupFrom (fun tr k es => (tr ++ [(k, es)], f k es)) t0 L =
      (t0 ++ L, none) := by
  intro L
  induction L with
  | nil => intro t0 _; simp [eachGroupFrom]
  | cons p rest ih =>
      intro t0 h
      have hp := h p (by simp)
      simp only [eachGroupFrom, hp]
      rw [ih (t0 ++ [(p.1, p.2)]) (fun q hq => h q (by simp [hq]))]
      simp

/-- A logging visitor stops at the first erroring pair, having recorded
exactly the pairs up to and including it. -/
theorem eachGroupFrom_log_stop {κ ε : Type} (f : κ → Entries → Option ε)
    (k : κ) (es : Entries) (e : ε) (hke : f k es = some e) :
    ∀ (A B t0 : List (κ × Entries)),
    (∀ p ∈ A, f p.1 p.2 = none) →
    eachGroupFrom (fun tr k' es' => (tr ++ [(k', es')], f k' es')) t0
      (A ++ (k, es) :: B) = (t0 ++ A ++ [(k, es)], some e) := by
  intro A
  induction A with
  | nil =>
      intro B t0 _
      simp [eachGroupFrom, hke]
  | cons p rest ih =>
      intro B t0 hA
      have hp := hA p (by simp)
      simp only [List.cons_append, eachGroupFrom, hp, List.append_eq]
      rw [ih B (t0 ++ [(p.1, p.2)]) (fun q hq => hA q (by simp [hq]))]
      simp

/-! ### `newKeys`, `joinFor` and `GroupBy` characterizations -/

theorem mem_newKeys {κ : Type} [DecidableEq κ] (k : κ) :
    ∀ (calls : List (κ × Entries)) (prev : List κ),
    k ∈ newKeys prev calls ↔ k ∉ prev ∧ k ∈ calls.map Prod.fst := by
  intro calls
  induction calls with
  | nil => intro prev; simp [newKeys]
  | cons c rest ih =>
      intro prev
      by_cases hc : c.1 ∈ prev
      · rw [newKeys, if_pos hc, ih prev]
        simp only [List.map_cons, List.mem_cons]
        constructor
        · rintro ⟨h1, h2⟩
          exact ⟨h1, Or.inr h2⟩
        · rintro ⟨h1, h2 | h2⟩
          · exact absurd (h2 ▸ hc) h1
          · exact ⟨h1, h2⟩
      · rw [newKeys, if_neg hc]
        constructor
        · intro hmem
          rcases List.mem_cons.1 hmem with hEq | hmem'
          · exact ⟨hEq ▸ hc, by simp [List.map_cons, hEq]⟩
          · obtain ⟨h1, h2⟩ := (ih (prev ++ [c.1])).1 hmem'
            refine ⟨fun hp => h1 (List.mem_append.2 (Or.inl hp)), ?_⟩
            rw [List.map_cons, List.mem_cons]
            exact Or.inr h2
        · rintro ⟨h1, h2⟩
          rw [List.map_cons, List.mem_cons] at h2
          rcases h2 with hEq | h2
          · exact List.mem_cons.2 (Or.inl hEq)
          · by_cases hkc : k = c.1
            · exact List.mem_cons.2 (Or.inl hkc)
            · refine List.mem_cons.2 (Or.inr ((ih (prev ++ [c.1])).2 ⟨?_, h2⟩))
              intro hp
              rcases List.mem_append.1 hp with hp | hp
              · exact h1 hp
              · exact hkc (List.mem_singleton.1 hp)

theorem newKeys_of_nodup {κ : Type} [DecidableEq κ] :
    ∀ (calls : List (κ × Entries)) (prev : List κ),
    (calls.map Prod.fst).Nodup →
    (∀ k ∈ calls.map Prod.fst, k ∉ prev) →
    newKeys prev calls = calls.map Prod.fst := by
  intro calls
  induction calls with
  | nil => intro prev _ _; rfl
  | cons c rest ih =>
      intro prev hnd hdisj
      have hc : c.1 ∉ prev := hdisj c.1 (by simp)
      rw [newKeys, if_neg hc, List.map_cons]
      congr 1
      apply ih (prev ++ [c.1])
      · exact (List.nodup_cons.1 (by simpa using hnd)).2
      · intro k hk
        simp only [List.mem_append, List.mem_singleton]
        rintro (hp | hEq)
        · exact hdisj k (by simp [hk]) hp
        · exact (List.nodup_cons.1 (by simpa using hnd)).1 (hEq ▸ hk)

theorem joinFor_map_single {κ : Type} [DecidableEq κ] (getter : Entry → κ)
    (k : κ) :
    ∀ (l : Entries),
    joinFor k (l.map (fun e => (getter e, ([e] : Entries)))) =
      l.filter (fun e => decide (getter e = k)) := by
  intro l
  induction l with
  | nil => rfl
  | cons e rest ih =>
      by_cases h : getter e = k
      · simp [joinFor, List.filter_cons, h, ih]
      · simp [joinFor, List.filter_cons, h, ih]

theorem groupBy_eq_foldA {κ : Type} [DecidableEq κ] (es : Entries)
    (getter : Entry → κ) :
    Entries.GroupBy es getter =
      (es.map (fun e => (getter e, ([e] : Entries)))).foldl
        (fun a c => a.AppendEntries c.1 c.2) (NewGroupedEntries κ) := by
  unfold Entries.GroupBy
  rw [List.foldl_map]
  rfl

/-- Full characterization of `GroupBy`: the invariant holds, keys appear
in first-detection order, and each key's group is the filter of the flat
sequence to that key. -/
theorem groupBy_char {κ : Type} [DecidableEq κ] (es : Entries)
    (getter : Entry → κ) :
    InvFull (Entries.GroupBy es getter) ∧
    (Entries.GroupBy es getter).Keys =
      newKeys [] (es.map (fun e => (getter e, ([e] : Entries)))) ∧
    ∀ k, (Entries.GroupBy es getter).Lookup k =
      if k ∈ es.map getter
      then some (es.filter (fun e => decide (getter e = k))) else none := by
  rw [groupBy_eq_foldA]
  obtain ⟨h1, h2, h3⟩ :=
    foldA_char (es.map fun e => (getter e, ([e] : Entries)))
      (NewGroupedEntries κ) invFull_new
  refine ⟨h1, by simpa using h2, fun k => ?_⟩
  rw [h3 k]
  have hlk : (NewGroupedEntries κ).Lookup k = none := rfl
  rw [hlk]
  rw [joinFor_map_single getter k es]
  rw [List.map_map]
  rfl

/-! ### Characterization of `Filter` -/

theorem Lookup_eq_none_iff {κ : Type} [DecidableEq κ] {g : GroupedEntries κ}
    (h : InvFull g) (k : κ) : g.Lookup k = none ↔ k ∉ g.Keys := by
  rw [Lookup_def, Option.map_eq_none']
  exact lookup_eq_none_iff_not_mem h k

/-- Under the invariant, the `(key, group)` pairs are determined by the
keys and `Lookup`. -/
theorem zip_eq_map_lookup {κ : Type} [DecidableEq κ] {g : GroupedEntries κ}
    (h : InvFull g) :
    g.Keys.zip g.Entries = g.Keys.map (fun k => (k, (g.Lookup k).getD [])) := by
  obtain ⟨hlen, hnd, hlk⟩ := h
  apply List.ext_getElem
  · simp [List.length_zip, ← hlen]
  · intro n h1 h2
    have hn : n < g.Keys.length := by
      simpa using h2
    have hnE : n < g.Entries.length := hlen ▸ hn
    rw [List.getElem_zip, List.getElem_map]
    have hlko : g.lookup (g.Keys[n]) = some n := by
      rw [hlk (g.Keys[n])]
      exact findIdxO_nodup_getElem hnd hn
    rw [Lookup_def, hlko]
    simp [List.getD_eq_getElem?_getD, List.getElem?_eq_getElem hnE]

theorem survivors_fst_sublist {κ : Type} [DecidableEq κ] (m : Matcher) :
    ∀ L : List (κ × Entries),
    ((L.filterMap (fun kv =>
        if 0 < (Entries.Filter kv.2 m).length
        then some (kv.1, Entries.Filter kv.2 m) else none)).map
      Prod.fst).Sublist (L.map Prod.fst) := by
  intro L
  induction L with
  | nil => simp
  | cons kv rest ih =>
      by_cases hc : 0 < (Entries.Filter kv.2 m).length
      · simp only [List.filterMap_cons, if_pos hc, List.map_cons]
        exact ih.cons₂ kv.1
      · simp only [List.filterMap_cons, if_neg hc, List.map_cons]
        exact ih.cons kv.1

theorem joinFor_eq_nil_of_not_mem {κ : Type} [DecidableEq κ] (k : κ) :
    ∀ L : List (κ × Entries), k ∉ L.map Prod.fst → joinFor k L = [] := by
  intro L
  induction L with
  | nil => intro _; rfl
  | cons c rest ih =>
      intro hk
      rw [joinFor, if_neg, ih]
      · intro hm
        exact hk (by simp [hm])
      · intro hEq
        exact hk (by simp [hEq])

theorem mem_fst_filterMap_survivor {κ : Type} [DecidableEq κ]
    (val : κ → Entries) (F : Entries → Entries) (keys : List κ) (k : κ) :
    k ∈ (keys.filterMap (fun k' =>
        if 0 < (F (val k')).length then some (k', F (val k')) else none)).map
      Prod.fst ↔ k ∈ keys ∧ 0 < (F (val k)).length := by
  rw [List.mem_map]
  constructor
  · rintro ⟨p, hp, hfst⟩
    obtain ⟨k', hk', hsome⟩ := List.mem_filterMap.1 hp
    by_cases hc : 0 < (F (val k')).length
    · rw [if_pos hc] at hsome
      obtain rfl := Option.some.injEq _ _ ▸ hsome
      obtain rfl : k' = k := hfst
      exact ⟨hk', hc⟩
    · rw [if_neg hc] at hsome
      cases hsome
  · rintro ⟨hk, hc⟩
    exact ⟨(k, F (val k)), List.mem_filterMap.2 ⟨k, hk, by rw [if_pos hc]⟩, rfl⟩

theorem joinFor_filterMap_nodup {κ : Type} [DecidableEq κ]
    (val : κ → Entries) (F : Entries → Entries) :
    ∀ (keys : List κ), keys.Nodup → ∀ k ∈ keys, 0 < (F (val k)).length →
    joinFor k (keys.filterMap (fun k' =>
        if 0 < (F (val k')).length then some (k', F (val k')) else none)) =
      F (val k) := by
  intro keys
  induction keys with
  | nil => intro _ k hk; cases hk
  | cons a rest ih =>
      intro hnd k hk hc
      obtain ⟨hna, hndr⟩ := List.nodup_cons.1 hnd
      rcases List.mem_cons.1 hk with hEq | hmem
      · subst hEq
        rw [List.filterMap_cons, if_pos hc, joinFor, if_pos rfl]
        rw [joinFor_eq_nil_of_not_mem]
        · simp
        · intro hm
          exact hna ((mem_fst_filterMap_survivor val F rest k).1 hm).1
      · have hka : ¬(a = k) := fun hEq => hna (hEq ▸ hmem)
        rw [List.filterMap_cons]
        by_cases hca : 0 < (F (val a)).length
        · rw [if_pos hca, joinFor, if_neg hka]
          exact ih hndr k hmem hc
        · rw [if_neg hca]
          exact ih hndr k hmem hc

theorem filterMap_ite_self {α : Type} (p : α → Prop) [DecidablePred p] :
    ∀ l : List α,
    l.filterMap (fun a => if p a then some a else none) =
      l.filter (fun a => decide (p a)) := by
  intro l
  induction l with
  | nil => rfl
  | cons a rest ih =>
      by_cases hp : p a
      · simp [hp, ih]
      · simp [hp, ih]

/-- Full characterization of `Filter`: the invariant is preserved, the
result's keys are the original keys with non-surviving groups dropped (in
original order), and each surviving key's group is the filtered group. -/
theorem filter_char {κ : Type} [DecidableEq κ] {g : GroupedEntries κ}
    (m : Matcher) (h : InvFull g) :
    InvFull (g.Filter m) ∧
    (g.Filter m).Keys = g.Keys.filter (fun k =>
      decide (0 < (Entries.Filter ((g.Lookup k).getD []) m).length)) ∧
    ∀ k, (g.Filter m).Lookup k =
      match g.Lookup k with
      | none => none
      | some es =>
          if 0 < (Entries.Filter es m).length
          then some (Entries.Filter es m) else none := by
  have hlenle : g.Keys.length ≤ g.Entries.length := le_of_eq h.1
  have hzipfst : (g.Keys.zip g.Entries).map Prod.fst = g.Keys :=
    List.map_fst_zip _ _ hlenle
  set calls := (g.Keys.zip g.Entries).filterMap (fun kv =>
    if 0 < (Entries.Filter kv.2 m).length
    then some (kv.1, Entries.Filter kv.2 m) else none) with hcalls
  have hsub : (calls.map Prod.fst).Sublist g.Keys :=
    hzipfst ▸ survivors_fst_sublist m (g.Keys.zip g.Entries)
  have hnodup : (calls.map Prod.fst).Nodup := hsub.nodup h.2.1
  have hcalls2 : calls = g.Keys.filterMap (fun k =>
      if 0 < (Entries.Filter ((g.Lookup k).getD []) m).length
      then some (k, Entries.Filter ((g.Lookup k).getD []) m) else none) := by
    rw [hcalls, zip_eq_map_lookup h, List.filterMap_map]
    rfl
  have hmemfst : ∀ k, k ∈ calls.map Prod.fst ↔
      k ∈ g.Keys ∧ 0 < (Entries.Filter ((g.Lookup k).getD []) m).length := by
    intro k
    rw [hcalls2]
    exact mem_fst_filterMap_survivor (fun k => (g.Lookup k).getD [])
      (fun es => Entries.Filter es m) g.Keys k
  obtain ⟨h1, h2, h3⟩ := foldA_char calls (NewGroupedEntries κ) invFull_new
  rw [Filter_eq g m]
  refine ⟨h1, ?_, ?_⟩
  · rw [h2]
    have : (NewGroupedEntries κ).Keys = [] := rfl
    rw [this, List.nil_append, newKeys_of_nodup calls [] hnodup (by simp)]
    rw [hcalls2, List.map_filterMap]
    have : ∀ k : κ, (Option.map Prod.fst
        (if 0 < (Entries.Filter ((g.Lookup k).getD []) m).length
         then some (k, Entries.Filter ((g.Lookup k).getD []) m) else none)) =
        if 0 < (Entries.Filter ((g.Lookup k).getD []) m).length
        then some k else none := by
      intro k
      by_cases hc : 0 < (Entries.Filter ((g.Lookup k).getD []) m).length
      · rw [if_pos hc, if_pos hc]
        rfl
      · rw [if_neg hc, if_neg hc]
        rfl
    simp only [this]
    exact filterMap_ite_self
      (fun k => 0 < (Entries.Filter ((g.Lookup k).getD []) m).length) g.Keys
  · intro k
    rw [h3 k]
    have hnew : (NewGroupedEntries κ).Lookup k = none := rfl
    rw [hnew]
    cases hgl : g.Lookup k with
    | none =>
        have hnm : k ∉ g.Keys := (Lookup_eq_none_iff h k).1 hgl
        rw [if_neg]
        intro hm
        exact hnm ((hmemfst k).1 hm).1
    | some es =>
        have hmem : k ∈ g.Keys := by
          by_contra hnm
          rw [(Lookup_eq_none_iff h k).2 hnm] at hgl
          cases hgl
        have hes : (g.Lookup k).getD [] = es := by rw [hgl]; rfl
        by_cases hc : 0 < (Entries.Filter es m).length
        · have hcv : 0 < (Entries.Filter ((g.Lookup k).getD []) m).length := by
            rw [hes]
            exact hc
          rw [if_pos ((hmemfst k).2 ⟨hmem, hcv⟩)]
          rw [hcalls2]
          rw [joinFor_filterMap_nodup (fun k => (g.Lookup k).getD [])
            (fun es => Entries.Filter es m) g.Keys h.2.1 k hmem hcv]
          rw [hes]
          simp [hc]
        · rw [if_neg]
          · simp [hc]
          · intro hm
            have := ((hmemfst k).1 hm).2
            rw [hes] at this
            exact hc this

/-! ### Sorting and `first` -/

theorem insertEntry_ne_nil (e : Entry) (l : Entries) : insertEntry e l ≠ [] := by
  cases l with
  | nil => simp [insertEntry]
  | cons f rest =>
      rw [insertEntry]
      by_cases h : e.Timestamp ≤ f.Timestamp
      · simp [h]
      · simp [h]

theorem sortEntries_eq_nil_iff {l : Entries} : sortEntries l = [] ↔ l = [] := by
  cases l with
  | nil => simp [sortEntries]
  | cons e rest =>
      rw [sortEntries]
      simp [insertEntry_ne_nil e (sortEntries rest)]

theorem mem_insertEntry {e b : Entry} :
    ∀ {l : Entries}, b ∈ insertEntry e l ↔ b = e ∨ b ∈ l := by
  intro l
  induction l with
  | nil => simp [insertEntry]
  | cons f rest ih =>
      rw [insertEntry]
      by_cases h : e.Timestamp ≤ f.Timestamp
      · rw [if_pos h]
        simp only [List.mem_cons]
      · rw [if_neg h]
        simp only [List.mem_cons, ih]
        tauto

theorem mem_sortEntries {b : Entry} :
    ∀ {l : Entries}, b ∈ sortEntries l ↔ b ∈ l := by
  intro l
  induction l with
  | nil => simp [sortEntries]
  | cons e rest ih =>
      rw [sortEntries, mem_insertEntry]
      simp [ih]

/-- The head of the insertion sort is a minimum of the list (by
timestamp). -/
theorem sortEntries_head_min :
    ∀ {l : Entries} {a : Entry} {t : Entries}, sortEntries l = a :: t →
    a ∈ l ∧ ∀ b ∈ l, a.Timestamp ≤ b.Timestamp := by
  intro l
  induction l with
  | nil => intro a t h; cases h
  | cons e rest ih =>
      intro a t h
      rw [sortEntries] at h
      cases hs : sortEntries rest with
      | nil =>
          have hrest : rest = [] := sortEntries_eq_nil_iff.1 hs
          rw [hs, insertEntry] at h
          injection h with h1 h2
          subst h1
          subst hrest
          refine ⟨by simp, ?_⟩
          intro b hb
          rw [List.mem_singleton] at hb
          subst hb
          exact Nat.le_refl _
      | cons hd tl =>
          obtain ⟨hmem, hmin⟩ := ih hs
          rw [hs, insertEntry] at h
          by_cases hle : e.Timestamp ≤ hd.Timestamp
          · rw [if_pos hle] at h
            injection h with h1 h2
            subst h1
            refine ⟨by simp, ?_⟩
            intro b hb
            rcases List.mem_cons.1 hb with hEq | hb2
            · subst hEq
              exact Nat.le_refl _
            · exact Nat.le_trans hle (hmin b hb2)
          · rw [if_neg hle] at h
            injection h with h1 h2
            subst h1
            refine ⟨List.mem_cons_of_mem e hmem, ?_⟩
            intro b hb
            rcases List.mem_cons.1 hb with hEq | hb2
            · subst hEq
              exact Nat.le_of_lt (Nat.lt_of_not_le hle)
            · exact hmin b hb2

/-- The candidate-collecting fold of `first` is a `filterMap`. -/
theorem first_fold_collect (m : Matcher) :
    ∀ (L : List Entries) (acc : Entries),
    L.foldl (fun acc entries =>
      match Entries.First entries m with
      | some fst => acc ++ [fst]
      | none => acc) acc =
      acc ++ L.filterMap (fun es => Entries.First es m) := by
  intro L
  induction L with
  | nil => intro acc; simp
  | cons x rest ih =>
      intro acc
      cases hf : Entries.First x m with
      | some y => simp [List.foldl_cons, hf, ih]
      | none => simp [List.foldl_cons, hf, ih]

/-- `first` in terms of the per-group candidates. -/
theorem first_eq {κ : Type} (g : GroupedEntries κ) (m : Matcher) :
    g.first m =
      if (g.Entries.filterMap (fun es => Entries.First es m)).isEmpty then none
      else (sortEntries
        (g.Entries.filterMap (fun es => Entries.First es m))).head? := by
  have h2 := first_fold_collect m g.Entries []
  rw [List.nil_append] at h2
  show (if (g.Entries.foldl (fun acc entries =>
      match Entries.First entries m with
      | some fst => acc ++ [fst]
      | none => acc) ([] : Entries)).isEmpty then none
    else (sortEntries (g.Entries.foldl (fun acc entries =>
      match Entries.First entries m with
      | some fst => acc ++ [fst]
      | none => acc) ([] : Entries))).head?) = _
  rw [h2]

/-- `first` fails exactly when no group has a matching entry. -/
theorem first_none_iff {κ : Type} (g : GroupedEntries κ) (m : Matcher) :
    g.first m = none ↔
    g.Entries.filterMap (fun es => Entries.First es m) = [] := by
  rw [first_eq]
  cases hE : g.Entries.filterMap (fun es => Entries.First es m) with
  | nil => simp
  | cons x xs =>
      have hne : sortEntries (x :: xs) ≠ [] := by
        rw [sortEntries]
        exact insertEntry_ne_nil x (sortEntries xs)
      cases hs : sortEntries (x :: xs) with
      | nil => exact absurd hs hne
      | cons a t => simp [hs]

/-- When some group has a matching entry, `first` returns a candidate that
is minimal by timestamp among all per-group candidates. -/
theorem first_min {κ : Type} {g : GroupedEntries κ} {m : Matcher}
    (h : g.Entries.filterMap (fun es => Entries.First es m) ≠ []) :
    ∃ a, g.first m = some a ∧
      a ∈ g.Entries.filterMap (fun es => Entries.First es m) ∧
      ∀ b ∈ g.Entries.filterMap (fun es => Entries.First es m),
        a.Timestamp ≤ b.Timestamp := by
  rw [first_eq]
  cases hs : sortEntries (g.Entries.filterMap (fun es => Entries.First es m)) with
  | nil => exact absurd (sortEntries_eq_nil_iff.1 hs) h
  | cons a t =>
      obtain ⟨hmem, hmin⟩ := sortEntries_head_min hs
      refine ⟨a, ?_, hmem, hmin⟩
      rw [if_neg (by simpa [List.isEmpty_iff] using h)]
      rfl

theorem perm_of_nodup_mem_iff {α : Type} [DecidableEq α] {l₁ l₂ : List α}
    (h₁ : l₁.Nodup) (h₂ : l₂.Nodup) (h : ∀ a, a ∈ l₁ ↔ a ∈ l₂) :
    l₁.Perm l₂ := by
  rw [List.perm_iff_count]
  intro a
  by_cases ha : a ∈ l₁
  · rw [List.count_eq_one_of_mem h₁ ha,
      List.count_eq_one_of_mem h₂ ((h a).1 ha)]
  · rw [List.count_eq_zero_of_not_mem ha,
      List.count_eq_zero_of_not_mem (fun hm => ha ((h a).2 hm))]

/-- `Filter`'s effect on `Lookup`, in `Option.bind` form. -/
theorem filter_lookup_bind {κ : Type} [DecidableEq κ] {g : GroupedEntries κ}
    (m : Matcher) (h : InvFull g) (k : κ) :
    (g.Filter m).Lookup k = (g.Lookup k).bind (fun es =>
      if 0 < (Entries.Filter es m).length then some (Entries.Filter es m)
      else none) := by
  rw [(filter_char m h).2.2 k]
  cases g.Lookup k
  · rfl
  · rfl

/-! ### Claims -/

/-- C4: for every map in which no entry of any group matches the anchor
descriptor's matcher (including the empty map), `ConstructTimelines`
returns an error identifying the anchor descriptor. -/
theorem c4_anchor_not_found {κ : Type} (g : GroupedEntries κ)
    (construct : Entries → TimelineDescription → Entry → Timeline κ)
    (d : TimelineMilestone) (rest : TimelineDescription)
    (h : ∀ es ∈ g.Entries, ∀ e ∈ es, d.Matcher e = false) :
    g.ConstructTimelines construct (d :: rest) =
      Except.error ("unable to find first entry to anchor timelines " ++
        d.Name) := by
  have hnone : g.first d.Matcher = none := by
    rw [first_none_iff]
    rw [List.filterMap_eq_nil_iff]
    intro es hes
    rw [Entries.First, List.find?_eq_none]
    intro e he
    simp [h es hes e he]
  exact constructTimelines_of_first_none g construct (d :: rest) hnone

theorem c4_witness :
    (∀ es ∈ (NewGroupedEntries Bool).Entries, ∀ e ∈ es,
      milestoneW.Matcher e = false) ∧
    (NewGroupedEntries Bool).ConstructTimelines constructW [milestoneW] =
      Except.error ("unable to find first entry to anchor timelines " ++
        milestoneW.Name) :=
  ⟨by decide,
    c4_anchor_not_found (NewGroupedEntries Bool) constructW milestoneW []
      (by decide)⟩

/-- C6: for every finite sequence of `AppendEntries` calls (of which
`Append` is the single-entry case) starting from the empty map, the keys
are the distinct call keys in first-append order, and each key's stored
group is the concatenation in call order of all entries appended under
it. -/
theorem c6_append_accumulates {κ : Type} [DecidableEq κ]
    (calls : List (κ × Entries)) :
    (calls.foldl (fun a c => a.AppendEntries c.1 c.2)
      (NewGroupedEntries κ)).Keys = newKeys [] calls ∧
    (calls.foldl (fun a c => a.AppendEntries c.1 c.2)
      (NewGroupedEntries κ)).Keys.Nodup ∧
    ∀ k, (calls.foldl (fun a c => a.AppendEntries c.1 c.2)
      (NewGroupedEntries κ)).Lookup k =
      if k ∈ calls.map Prod.fst then some (joinFor k calls) else none := by
  obtain ⟨h1, h2, h3⟩ := foldA_char calls (NewGroupedEntries κ) invFull_new
  refine ⟨by simpa using h2, h1.2.1, fun k => ?_⟩
  have hnew : (NewGroupedEntries κ).Lookup k = none := rfl
  rw [h3 k, hnew]

/-- C8: `EachGroup` visits each group once in key order, recording them;
a visitor error stops the iteration at that group and is returned as is,
and an error-free run visits everything and returns nil.  The visitor's
trace state makes "visited" observable. -/
theorem c8_eachGroup_short_circuit {κ ε : Type} [DecidableEq κ]
    (g : GroupedEntries κ) (f : κ → Entries → Option ε)
    (_hinv : InvFull g) :
    ((∀ p ∈ g.Keys.zip g.Entries, f p.1 p.2 = none) →
      g.EachGroup (fun tr k es => (tr ++ [(k, es)], f k es)) [] =
        (g.Keys.zip g.Entries, none)) ∧
    (∀ (A B : List (κ × Entries)) (k : κ) (es : Entries) (e : ε),
      g.Keys.zip g.Entries = A ++ (k, es) :: B →
      (∀ p ∈ A, f p.1 p.2 = none) → f k es = some e →
      g.EachGroup (fun tr k es => (tr ++ [(k, es)], f k es)) [] =
        (A ++ [(k, es)], some e)) := by
  constructor
  · intro hall
    unfold GroupedEntries.EachGroup
    rw [eachGroupFrom_log_all f _ [] hall]
    simp
  · intro A B k es e hsplit hA hke
    unfold GroupedEntries.EachGroup
    rw [hsplit, eachGroupFrom_log_stop f k es e hke A B [] hA]
    simp

theorem c8_witness :
    InvFull gW ∧
    gW.Keys.zip gW.Entries = [(true, [entryA])] ++ (false, [entryB]) :: [] ∧
    fW false [entryB] = some () ∧
    gW.EachGroup (fun tr k es => (tr ++ [(k, es)], fW k es)) [] =
      ([(true, [entryA])] ++ [(false, [entryB])], some ()) :=
  ⟨by decide, by decide, by decide,
    (c8_eachGroup_short_circuit gW fW (by decide)).2 [(true, [entryA])] []
      false [entryB] () (by decide) (by decide) (by decide)⟩

/-- C10: appending an empty entry sequence under a fresh key still
registers the key: it appears at the end of `Keys`, `Lookup` finds it with
an empty group, and `EachGroup` visits the empty group. -/
theorem c10_append_empty_registers {κ : Type} [DecidableEq κ]
    (g : GroupedEntries κ) (k : κ) (hinv : InvFull g) (hk : k ∉ g.Keys) :
    (g.AppendEntries k []).Keys = g.Keys ++ [k] ∧
    (g.AppendEntries k []).Lookup k = some [] ∧
    (g.AppendEntries k []).EachGroup
      (fun tr key es => (tr ++ [(key, es)], (none : Option Unit))) [] =
      (g.Keys.zip g.Entries ++ [(k, [])], none) := by
  have hlnone : g.lookup k = none := (lookup_eq_none_iff_not_mem hinv k).2 hk
  have hshape := appendEntries_of_lookup_none ([] : Entries) hinv.1 hlnone
  refine ⟨by rw [hshape], ?_, ?_⟩
  · rw [lookup_appendEntries k [] hinv k, if_pos rfl,
      (Lookup_eq_none_iff hinv k).2 hk]
    rfl
  · unfold GroupedEntries.EachGroup
    rw [hshape]
    show eachGroupFrom _ _ ((g.Keys ++ [k]).zip (g.Entries ++ [[]])) = _
    rw [List.zip_append hinv.1]
    exact eachGroupFrom_log_all (fun _ _ => (none : Option Unit))
      (g.Keys.zip g.Entries ++ [k].zip [[]]) [] (fun p _ => rfl)

theorem c10_witness :
    InvFull gB1 ∧ (false ∉ gB1.Keys) ∧
    (gB1.AppendEntries false []).Keys = gB1.Keys ++ [false] ∧
    (gB1.AppendEntries false []).Lookup false = some [] ∧
    (gB1.AppendEntries false []).EachGroup
      (fun tr key es => (tr ++ [(key, es)], (none : Option Unit))) [] =
      (gB1.Keys.zip gB1.Entries ++ [(false, [])], none) := by
  refine ⟨by decide, by decide, ?_⟩
  exact c10_append_empty_registers gB1 false (by decide) (by decide)

/-- C5: the Go source discards the error returned by `EachGroup` inside
`WriteLagerFormatTo` and returns nil unconditionally.  Evaluated at a
one-group map and a sink that rejects every write: two writes are
attempted (the key line's failure is ignored, the group's entries write
fails and aborts the loop), yet the dump's returned error is `none`
instead of the write failure. -/
theorem c5_write_error_swallowed :
    gB1.WriteLagerFormatTo (fun _ => "k") wFail 0 = (2, none) ∧
    Entries.WriteLagerFormatTo [entryA] wFail 1 = (2, some ()) := by
  constructor
  · rfl
  · rfl

/-- C1: when at least one group has an entry matching the anchor
descriptor's matcher, `ConstructTimelines` selects as the single shared
anchor a per-group candidate (each group's first matching entry, in group
order) that is earliest by the entries' natural order (timestamp) among
all candidates, and passes exactly that anchor to every group's timeline
construction; with candidates at strictly distinct times T1 < T2 this
forces the entry at T1 regardless of group order. -/
theorem c1_anchor_global_earliest {κ : Type} (g : GroupedEntries κ)
    (construct : Entries → TimelineDescription → Entry → Timeline κ)
    (d : TimelineMilestone) (rest : TimelineDescription)
    (hc : g.Entries.filterMap (fun es => Entries.First es d.Matcher) ≠ []) :
    ∃ a, g.first d.Matcher = some a ∧
      a ∈ g.Entries.filterMap (fun es => Entries.First es d.Matcher) ∧
      (∀ b ∈ g.Entries.filterMap (fun es => Entries.First es d.Matcher),
        a.Timestamp ≤ b.Timestamp) ∧
      g.ConstructTimelines construct (d :: rest) =
        Except.ok ((g.Keys.zip g.Entries).map (fun kv =>
          { construct kv.2 (d :: rest) a with Annotation := some kv.1 })) := by
  obtain ⟨a, h1, h2, h3⟩ := first_min hc
  exact ⟨a, h1, h2, h3,
    constructTimelines_of_first_some g construct (d :: rest) a h1⟩

theorem c1_witness :
    (gW.Entries.filterMap
      (fun es => Entries.First es milestoneW.Matcher) ≠ []) ∧
    (∃ a, gW.first milestoneW.Matcher = some a ∧
      a ∈ gW.Entries.filterMap (fun es => Entries.First es milestoneW.Matcher) ∧
      (∀ b ∈ gW.Entries.filterMap
        (fun es => Entries.First es milestoneW.Matcher),
        a.Timestamp ≤ b.Timestamp) ∧
      gW.ConstructTimelines constructW [milestoneW] =
        Except.ok ((gW.Keys.zip gW.Entries).map (fun kv =>
          { constructW kv.2 [milestoneW] a with
            Annotation := some kv.1 }))) :=
  ⟨by decide,
    c1_anchor_global_earliest gW constructW milestoneW [] (by decide)⟩

/-- C3: when anchor selection succeeds on a valid map,
`ConstructTimelines` returns exactly one timeline per group, in
key-insertion order, each annotated with its own group's key. -/
theorem c3_one_timeline_per_group {κ : Type} [DecidableEq κ]
    (g : GroupedEntries κ)
    (construct : Entries → TimelineDescription → Entry → Timeline κ)
    (d : TimelineMilestone) (rest : TimelineDescription) (a : Entry)
    (hinv : InvFull g) (hfirst : g.first d.Matcher = some a) :
    ∃ ts, g.ConstructTimelines construct (d :: rest) = Except.ok ts ∧
      ts.length = g.Keys.length ∧
      ∀ i : Nat, (ts[i]?).map Timeline.annot =
        (g.Keys[i]?).map (fun k => some k) := by
  have hzlen : (g.Keys.zip g.Entries).length = g.Keys.length := by
    rw [List.length_zip, ← hinv.1]
    exact Nat.min_self _
  refine ⟨_, constructTimelines_of_first_some g construct (d :: rest) a
    hfirst, ?_, ?_⟩
  · rw [List.length_map]
    exact hzlen
  · intro i
    by_cases hi : i < g.Keys.length
    · have hiz : i < (g.Keys.zip g.Entries).length := hzlen ▸ hi
      rw [List.getElem?_map, List.getElem?_eq_getElem hiz,
        List.getElem?_eq_getElem hi]
      simp [List.getElem_zip, Timeline.annot]
    · rw [List.getElem?_eq_none (by rw [List.length_map]; omega),
        List.getElem?_eq_none (by omega)]
      rfl

theorem c3_witness :
    InvFull gW ∧ gW.first milestoneW.Matcher = some entryB ∧
    (∃ ts, gW.ConstructTimelines constructW [milestoneW] = Except.ok ts ∧
      ts.length = gW.Keys.length ∧
      ∀ i : Nat, (ts[i]?).map Timeline.annot =
        (gW.Keys[i]?).map (fun k => some k)) :=
  ⟨by decide, by decide,
    c3_one_timeline_per_group gW constructW milestoneW [] entryB
      (by decide) (by decide)⟩

/-- C7: `Filter` produces a map whose keys are the original keys in
original order with every emptied group dropped, whose groups are the
matcher-filtered originals; the receiver is untouched (intrinsic to the
pure embedding). -/
theorem c7_filter_prunes_empty_groups {κ : Type} [DecidableEq κ]
    (g : GroupedEntries κ) (m : Matcher) (h : InvFull g) :
    (g.Filter m).Keys = g.Keys.filter (fun k =>
      decide (0 < (Entries.Filter ((g.Lookup k).getD []) m).length)) ∧
    (∀ k, (g.Filter m).Lookup k = (g.Lookup k).bind (fun es =>
      if 0 < (Entries.Filter es m).length then some (Entries.Filter es m)
      else none)) ∧
    ∀ k es, g.Lookup k = some es → (Entries.Filter es m).length = 0 →
      k ∉ (g.Filter m).Keys := by
  obtain ⟨h1, h2, h3⟩ := filter_char m h
  have h3' : ∀ k, (g.Filter m).Lookup k = (g.Lookup k).bind (fun es =>
      if 0 < (Entries.Filter es m).length then some (Entries.Filter es m)
      else none) := by
    intro k
    rw [h3 k]
    cases g.Lookup k
    · rfl
    · rfl
  refine ⟨h2, h3', ?_⟩
  intro k es hk hlen
  rw [h2, List.mem_filter]
  rintro ⟨_, hcond⟩
  rw [hk] at hcond
  simp only [Option.getD_some, decide_eq_true_eq] at hcond
  omega

theorem c7_witness :
    InvFull gW ∧
    ((gW.Filter mTime).Keys = gW.Keys.filter (fun k =>
      decide (0 < (Entries.Filter ((gW.Lookup k).getD []) mTime).length)) ∧
    (∀ k, (gW.Filter mTime).Lookup k = (gW.Lookup k).bind (fun es =>
      if 0 < (Entries.Filter es mTime).length
      then some (Entries.Filter es mTime) else none)) ∧
    ∀ k es, gW.Lookup k = some es → (Entries.Filter es mTime).length = 0 →
      k ∉ (gW.Filter mTime).Keys) :=
  ⟨by decide, c7_filter_prunes_empty_groups gW mTime (by decide)⟩

/-- C9: every map reachable from `NewGroupedEntries` by `Append`,
`AppendEntries` and `Filter` keeps the parallel arrays the same length,
has no duplicate key, and its lookup index sends each present key to the
unique position holding it. -/
theorem c9_reachable_invariant {κ : Type} [DecidableEq κ]
    (g : GroupedEntries κ) (h : Reachable g) :
    g.Keys.length = g.Entries.length ∧ g.Keys.Nodup ∧
    ∀ k ∈ g.Keys, ∃ i, ∃ hi : i < g.Keys.length,
      g.lookup k = some i ∧ g.Keys[i] = k ∧
      ∀ j (hj : j < g.Keys.length), g.Keys.get ⟨j, hj⟩ = k → j = i := by
  have hinv : InvFull g := by
    induction h with
    | new => exact invFull_new
    | append g' k e _ ih => exact invFull_appendEntries k [e] ih
    | appendEntries g' k es _ ih => exact invFull_appendEntries k es ih
    | filter g' m _ ih => exact (filter_char m ih).1
  obtain ⟨h1, h2, h3⟩ := hinv
  refine ⟨h1, h2, ?_⟩
  intro k hk
  cases hfi : findIdxO (fun x => decide (x = k)) g.Keys with
  | none =>
      rw [findIdxO_eq_none_iff] at hfi
      have := hfi k hk
      simp at this
  | some i =>
      obtain ⟨hi, hp⟩ := findIdxO_getElem hfi
      simp only [decide_eq_true_eq] at hp
      refine ⟨i, hi, by rw [h3 k, hfi], hp, ?_⟩
      intro j hj hjk
      exact (List.Nodup.getElem_inj_iff h2).1 (hjk.trans hp.symm)

theorem c9_witness :
    Reachable gR ∧
    (gR.Keys.length = gR.Entries.length ∧ gR.Keys.Nodup ∧
    ∀ k ∈ gR.Keys, ∃ i, ∃ hi : i < gR.Keys.length,
      gR.lookup k = some i ∧ gR.Keys[i] = k ∧
      ∀ j (hj : j < gR.Keys.length), gR.Keys.get ⟨j, hj⟩ = k → j = i) :=
  ⟨Reachable.filter _ matchAll
      (Reachable.append (NewGroupedEntries Bool) true entryA Reachable.new),
    c9_reachable_invariant gR
      (Reachable.filter _ matchAll
        (Reachable.append (NewGroupedEntries Bool) true entryA
          Reachable.new))⟩

/-- C2 counterexample: filtering then grouping and grouping then
filtering disagree on key order.  In `esX` the earliest key-1 entry is
rejected by `mX` while a later key-1 entry survives, and a key-2 entry
sits in between: filter-then-group sees key 2 first, group-then-filter
keeps the original first-occurrence order with key 1 first. -/
theorem c2_counterexample :
    (Entries.GroupBy (Entries.Filter esX mX) getterX).Keys = [2, 1] ∧
    ((Entries.GroupBy esX getterX).Filter mX).Keys = [1, 2] ∧
    (Entries.GroupBy (Entries.Filter esX mX) getterX).Keys ≠
      ((Entries.GroupBy esX getterX).Filter mX).Keys := by
  refine ⟨by decide, by decide, by decide⟩

/-- C2 amended: filtering a flat sequence then grouping yields the same
key set (as a permutation) and the same per-key entry sequences as
grouping then filtering; the key ORDER may differ (filter-then-group
orders keys by first surviving entry, group-then-filter by original first
occurrence), as the counterexample shows. -/
theorem c2_filter_groupBy_commute_amended {κ : Type} [DecidableEq κ]
    (es : Entries) (getter : Entry → κ) (m : Matcher) :
    ((Entries.GroupBy (Entries.Filter es m) getter).Keys).Perm
      ((Entries.GroupBy es getter).Filter m).Keys ∧
    ∀ k, (Entries.GroupBy (Entries.Filter es m) getter).Lookup k =
      ((Entries.GroupBy es getter).Filter m).Lookup k := by
  obtain ⟨hA1, hA2, hA3⟩ := groupBy_char (Entries.Filter es m) getter
  obtain ⟨hB1, hB2, hB3⟩ := groupBy_char es getter
  obtain ⟨hF1, hF2, hF3⟩ := filter_char m hB1
  have hmemA : ∀ k,
      k ∈ (Entries.GroupBy (Entries.Filter es m) getter).Keys ↔
      ∃ e, e ∈ es ∧ m e = true ∧ getter e = k := by
    intro k
    rw [hA2, mem_newKeys]
    simp only [List.not_mem_nil, not_false_iff, true_and, List.map_map]
    simp only [Entries.Filter]
    constructor
    · intro hm
      obtain ⟨e, he, hg⟩ := List.mem_map.1 hm
      rw [List.mem_filter] at he
      exact ⟨e, he.1, he.2, by simpa using hg⟩
    · rintro ⟨e, he, hme, hgk⟩
      exact List.mem_map.2 ⟨e, List.mem_filter.2 ⟨he, hme⟩, by simpa using hgk⟩
  have hmemB0 : ∀ k, k ∈ (Entries.GroupBy es getter).Keys ↔
      k ∈ List.map getter es := by
    intro k
    rw [hB2, mem_newKeys]
    simp only [List.not_mem_nil, not_false_iff, true_and, List.map_map]
    constructor
    · intro hm
      obtain ⟨e, he, hg⟩ := List.mem_map.1 hm
      exact List.mem_map.2 ⟨e, he, by simpa using hg⟩
    · intro hm
      obtain ⟨e, he, hg⟩ := List.mem_map.1 hm
      exact List.mem_map.2 ⟨e, he, by simpa using hg⟩
  have hiff : ∀ k, k ∈ List.map getter (Entries.Filter es m) ↔
      0 < (Entries.Filter
        (List.filter (fun e => decide (getter e = k)) es) m).length := by
    intro k
    simp only [Entries.Filter, List.mem_map, List.mem_filter,
      List.length_pos, Ne, List.filter_eq_nil_iff, decide_eq_true_eq]
    push_neg
    constructor
    · rintro ⟨e, ⟨he, hme⟩, hgk⟩
      exact ⟨e, ⟨he, hgk⟩, hme⟩
    · rintro ⟨e, ⟨he, hgk⟩, hme⟩
      exact ⟨e, ⟨he, hme⟩, hgk⟩
  have hmemB : ∀ k, k ∈ ((Entries.GroupBy es getter).Filter m).Keys ↔
      ∃ e, e ∈ es ∧ m e = true ∧ getter e = k := by
    intro k
    rw [hF2, List.mem_filter]
    constructor
    · rintro ⟨hkB, hcond⟩
      have hkB' : k ∈ List.map getter es := (hmemB0 k).1 hkB
      rw [hB3 k, if_pos hkB'] at hcond
      simp only [Option.getD_some, decide_eq_true_eq] at hcond
      simp only [Entries.Filter] at hcond
      rw [List.length_pos] at hcond
      obtain ⟨x, hx⟩ := List.exists_mem_of_ne_nil _ hcond
      simp only [List.mem_filter, decide_eq_true_eq] at hx
      exact ⟨x, hx.1.1, hx.2, hx.1.2⟩
    · rintro ⟨e, he, hme, hgk⟩
      have hkB' : k ∈ List.map getter es := List.mem_map.2 ⟨e, he, hgk⟩
      refine ⟨(hmemB0 k).2 hkB', ?_⟩
      rw [hB3 k, if_pos hkB']
      simp only [Option.getD_some, decide_eq_true_eq]
      simp only [Entries.Filter]
      rw [List.length_pos]
      intro hnil
      rw [List.filter_eq_nil_iff] at hnil
      exact absurd (by simp [hme] : m e = true)
        (by simpa using hnil e (List.mem_filter.2 ⟨he, by simp [hgk]⟩))
  refine ⟨perm_of_nodup_mem_iff hA1.2.1 hF1.2.1
    (fun k => (hmemA k).trans (hmemB k).symm), ?_⟩
  intro k
  by_cases hkB' : k ∈ List.map getter es
  · rw [filter_lookup_bind m hB1 k, hB3 k, if_pos hkB', Option.some_bind]
    rw [hA3 k]
    by_cases hsur : 0 < (Entries.Filter
        (List.filter (fun e => decide (getter e = k)) es) m).length
    · rw [if_pos hsur, if_pos ((hiff k).2 hsur)]
      simp only [Entries.Filter]
      rw [List.filter_comm]
    · rw [if_neg hsur, if_neg (fun hm => hsur ((hiff k).1 hm))]
  · rw [filter_lookup_bind m hB1 k, hB3 k, if_neg hkB', Option.none_bind]
    rw [hA3 k, if_neg]
    intro hm
    obtain ⟨e, he, hgk⟩ := List.mem_map.1 hm
    simp only [Entries.Filter, List.mem_filter] at he
    exact hkB' (List.mem_map.2 ⟨e, he.1, hgk⟩)

end Cicerone
